import Mathlib

/-!
Verification of the `json_syntax` rule-engine core: the `Matches` lattice and
pattern-shadowing algebra (`json_syntax/pattern.py`), the action cache with
forward-reference cells (`json_syntax/cache.py`), and the rule-set lookup
engine (`json_syntax/ruleset.py`).  Python objects are embedded shallowly:
mutable cells become an explicit heap of cells inside an explicit state,
Python exceptions become `Except` results, and the `matches` recursion is
fuel-indexed (the wrapper supplies fuel exceeding the structural depth).
-/

namespace JsonSyntax

/-- The 4-point shadowing lattice `Matches` from `pattern.py` (an `IntEnum`:
always = 0, sometimes = 1, potential = 2, never = 3). -/
inductive Matches where
  | always
  | sometimes
  | potential
  | never
deriving DecidableEq

/-- Numeric value of a `Matches` member, as in the Python `IntEnum`. -/
def Matches.val : Matches → Nat
  | .always => 0
  | .sometimes => 1
  | .potential => 2
  | .never => 3

/-- Binary maximum on `Matches` by numeric value (Python `max` keeps the
current element on ties). -/
def Matches.pymax (a b : Matches) : Matches :=
  if a.val < b.val then b else a

/-- Binary minimum on `Matches` by numeric value. -/
def Matches.pymin (a b : Matches) : Matches :=
  if b.val < a.val then b else a

/-- `matches_all = partial(max, default=Matches.always)`: the all-reduction
(weakest link wins, lattice maximum, `always` on empty input). -/
def matches_all (xs : List Matches) : Matches :=
  xs.foldl Matches.pymax .always

/-- `matches_any = partial(min, default=Matches.never)`: the any-reduction
(strongest match wins, lattice minimum, `never` on empty input). -/
def matches_any (xs : List Matches) : Matches :=
  xs.foldl Matches.pymin .never

/-- The `arg` slot of a `String` pattern: either a literal string (for
`String.exact`) or a recognizer predicate.  Predicates carry a numeric
identity standing for Python object identity, used by `==` comparisons. -/
inductive StrArg where
  | strArg (s : String)
  | predArg (id : Nat) (p : String → Bool)

/-- Python `==` on `arg` slots: strings compare by value, predicates (plain
function objects) by identity; mixed comparisons are unequal. -/
def StrArg.eqArg : Option StrArg → Option StrArg → Bool
  | none, none => true
  | some (.strArg a), some (.strArg b) => a == b
  | some (.predArg pid _), some (.predArg qid _) => pid == qid
  | _, _ => false

/-- The pattern tree of `pattern.py`: `Atom(value)`, `String(name, arg)`,
`Alternatives(alts)`, `Array(elems, homog)`, `Object(items, homog)` and the
two `_Unknown` sentinels `Missing` and `Unknown`.  Atom values are the JSON
atom literals the source uses (`None` and numbers), compared with `==`. -/
inductive Pattern where
  | atom (value : Option Int)
  | str (name : String) (arg : Option StrArg)
  | alts (alternatives : List Pattern)
  | array (elems : List Pattern) (homog : Bool)
  | obj (items : List (Pattern × Pattern)) (homog : Bool)
  | missing
  | unknown

/-- `String.any = String("str")`: the generic-string pattern. -/
def strAny : Pattern := .str "str" none

/-- `String.exact(s) = String("exact", s)`. -/
def strExact (s : String) : Pattern := .str "exact" (some (.strArg s))

mutual

/-- Structural stand-in for the identity test on pattern pairs stored in the
`ctx` visited set (predicates compare by their identity tag). -/
def Pattern.beq : Pattern → Pattern → Bool
  | .atom a, .atom b => a == b
  | .str n a, .str m b => n == m && StrArg.eqArg a b
  | .alts xs, .alts ys => Pattern.beqList xs ys
  | .array xs hx, .array ys hy => hx == hy && Pattern.beqList xs ys
  | .obj xs hx, .obj ys hy => hx == hy && Pattern.beqItems xs ys
  | .missing, .missing => true
  | .unknown, .unknown => true
  | _, _ => false
termination_by structural p _ => p

/-- Pairwise `Pattern.beq` on lists. -/
def Pattern.beqList : List Pattern → List Pattern → Bool
  | [], [] => true
  | x :: xs, y :: ys => Pattern.beq x y && Pattern.beqList xs ys
  | _, _ => false
termination_by structural l _ => l

/-- Pairwise `Pattern.beq` on item lists. -/
def Pattern.beqItems : List (Pattern × Pattern) → List (Pattern × Pattern) → Bool
  | [], [] => true
  | (k, v) :: xs, (l, w) :: ys => Pattern.beq k l && Pattern.beq v w && Pattern.beqItems xs ys
  | _, _ => false
termination_by structural l _ => l

end

/-- The `ctx` visited set of `matches`: pairs of already-compared patterns.
Python stores object identities; the embedding uses structural pairs, which
coincides with identity on the tree-shaped inputs analyzed here (it would
over-approximate only when structurally equal distinct nodes are compared
repeatedly within one traversal). -/
abbrev Ctx := List (Pattern × Pattern)

/-- `(left, right) in ctx`. -/
def ctxMem (c : Ctx) (l r : Pattern) : Bool :=
  c.any fun lr => Pattern.beq lr.1 l && Pattern.beq lr.2 r

/-- `Pattern._unpack`: `Alternatives` yields its children, every other node
yields itself. -/
def Pattern.unpack : Pattern → List Pattern
  | .alts xs => xs
  | p => [p]

/-- The `product(left._unpack(), right._unpack())` pair list, in Python's
iteration order. -/
def pairsOf (l r : Pattern) : List (Pattern × Pattern) :=
  (l.unpack.map fun a => r.unpack.map fun b => (a, b)).flatten

/-- `islice(cycle(orig), n)` starting from the remainder `cur` of `orig`:
take `n` elements cycling through `orig` (empty when `orig` is empty, as
`cycle` of an empty iterable is immediately exhausted). -/
def cycleTake (orig : List Pattern) : Nat → List Pattern → List Pattern
  | 0, _ => []
  | Nat.succ n, x :: xs => x :: cycleTake orig n xs
  | Nat.succ n, [] =>
    match orig with
    | [] => []
    | y :: ys => y :: cycleTake orig n ys

/-- `islice(cycle(xs), n)`. -/
def cycleTo (xs : List Pattern) (n : Nat) : List Pattern :=
  cycleTake xs n xs

/-- `zip_longest(xs, ys, fillvalue=fill)`. -/
def zipLongest (xs ys : List Pattern) (fill : Pattern) : List (Pattern × Pattern) :=
  match xs, ys with
  | [], [] => []
  | x :: xs, [] => (x, fill) :: zipLongest xs [] fill
  | [], y :: ys => (fill, y) :: zipLongest [] ys fill
  | x :: xs, y :: ys => (x, y) :: zipLongest xs ys fill

mutual

/-- `matches(left, right, ctx)` from `pattern.py`.  A fresh call (`ctx=None`)
creates the visited set without a membership test; a nested call returns
`potential` on a previously seen pair.  Otherwise the pair is added and the
any-reduction of `left._matches(right, ctx)` over the unpacked product is
taken, threading the mutable `ctx` in Python's evaluation order.  Python
exceptions (`NotImplementedError` for a nested `Alternatives`, `TypeError`
from a malformed recognizer call) are `Except.error`.  Every function of
this block ticks the fuel argument once per call, so fuel exceeding the
total call count suffices; the `matchesTop` wrapper supplies ample fuel and
the fuel-exhaustion defaults are unreachable from it. -/
def matchesF : Nat → Pattern → Pattern → Option Ctx → Except String (Matches × Ctx)
  | 0, _, _, octx => .ok (.potential, octx.getD [])
  | fuel + 1, left, right, octx =>
    match octx with
    | none => matchesProd fuel (pairsOf left right) [(left, right)] []
    | some c =>
      if ctxMem c left right then .ok (.potential, c)
      else matchesProd fuel (pairsOf left right) ((left, right) :: c) []
termination_by structural fuel _ _ _ => fuel

/-- The any-reduction over `left._matches(right, ctx)` for the unpacked
product pairs, accumulating results in order while threading `ctx`. -/
def matchesProd : Nat → List (Pattern × Pattern) → Ctx → List Matches →
    Except String (Matches × Ctx)
  | 0, _, ctx, acc => .ok (matches_any acc, ctx)
  | _ + 1, [], ctx, acc => .ok (matches_any acc, ctx)
  | fuel + 1, (l, r) :: rest, ctx, acc =>
    match pmatchesF fuel l r ctx with
    | .error e => .error e
    | .ok (m, ctx1) => matchesProd fuel rest ctx1 (acc ++ [m])
termination_by structural fuel _ _ _ => fuel

/-- The `_matches` dispatch of `pattern.py`: `Atom._matches`,
`String._matches`, `_Unknown._matches` (the `Missing` and `Unknown`
sentinels), `Array._matches`, `Object._matches`, and the
`NotImplementedError` of `Alternatives._matches`. -/
def pmatchesF : Nat → Pattern → Pattern → Ctx → Except String (Matches × Ctx)
  | 0, _, _, ctx => .ok (.potential, ctx)
  | fuel + 1, self, other, ctx =>
    match self with
    | .atom v =>
      .ok ((match other with
            | .atom w => if v == w then Matches.always else Matches.never
            | _ => Matches.never), ctx)
    | .str sname sarg =>
      match other with
      | .str oname oarg =>
        if sname = "str" then .ok (.always, ctx)
        else if oname = "str" then .ok (.sometimes, ctx)
        else if sname = "exact" then
          if oname = "exact" then
            .ok (if StrArg.eqArg sarg oarg then .always else .never, ctx)
          else
            match oarg with
            | none => .ok (.potential, ctx)
            | some (.strArg _) => .error "TypeError: str object is not callable"
            | some (.predArg _ p) =>
              match sarg with
              | some (.strArg s) => .ok (if p s then .always else .never, ctx)
              | _ => .error "TypeError: recognizer applied to a non-string arg"
        else .ok (if sname = oname then .always else .potential, ctx)
      | _ => .ok (.never, ctx)
    | .missing => .ok (.never, ctx)
    | .unknown => .ok (.potential, ctx)
    | .alts _ => .error "NotImplementedError: Didn't call unpack"
    | .array selems shomog =>
      match other with
      | .array oelems ohomog =>
        if shomog && oelems.isEmpty then .ok (.always, ctx)
        else
          let lr :=
            if shomog && !ohomog then (cycleTo selems oelems.length, oelems)
            else if !shomog && ohomog then (selems, cycleTo oelems selems.length)
            else (selems, oelems)
          match arrayPairsF fuel (zipLongest lr.1 lr.2 .missing) ctx with
          | .error e => .error e
          | .ok (ms, c1) =>
            let possible := matches_all ms
            .ok ((if shomog && ohomog then matches_any [.sometimes, possible] else possible), c1)
      | _ => .ok (.never, ctx)
    | .obj sitems shomog =>
      match other with
      | .obj oitems ohomog =>
        if shomog && oitems.isEmpty then .ok (.always, ctx)
        else
          match objItemsF fuel sitems oitems ctx with
          | .error e => .error e
          | .ok (ms, c1) =>
            let possible := matches_all ms
            .ok ((if shomog && ohomog then matches_any [.sometimes, possible] else possible), c1)
      | _ => .ok (.never, ctx)
termination_by structural fuel _ _ _ => fuel

/-- Element-wise `matches(l, r, ctx)` over the zipped pairs of
`Array._matches`, collecting the results in order. -/
def arrayPairsF : Nat → List (Pattern × Pattern) → Ctx → Except String (List Matches × Ctx)
  | 0, _, ctx => .ok ([], ctx)
  | _ + 1, [], ctx => .ok ([], ctx)
  | fuel + 1, (l, r) :: rest, ctx =>
    match matchesF fuel l r (some ctx) with
    | .error e => .error e
    | .ok (m, c1) =>
      match arrayPairsF fuel rest c1 with
      | .error e => .error e
      | .ok (ms, c2) => .ok (m :: ms, c2)
termination_by structural fuel _ _ => fuel

/-- The inner generator of `Object._matches` for one left entry `(lk, lv)`:
`matches(lk, rk, ctx) and matches(lv, rv, ctx)` for each right entry.
Python `and` returns its first operand when that operand is falsy, and
`Matches.always == 0` is the one falsy member, so an `always` key match is
returned as the combined result without evaluating the value match. -/
def objEntryF : Nat → Pattern → Pattern → List (Pattern × Pattern) → Ctx →
    Except String (List Matches × Ctx)
  | 0, _, _, _, ctx => .ok ([], ctx)
  | _ + 1, _, _, [], ctx => .ok ([], ctx)
  | fuel + 1, lk, lv, (rk, rv) :: rest, ctx =>
    match matchesF fuel lk rk (some ctx) with
    | .error e => .error e
    | .ok (km, c1) =>
      match (if km = .always then .ok (km, c1) else matchesF fuel lv rv (some c1) :
          Except String (Matches × Ctx)) with
      | .error e => .error e
      | .ok (cm, c2) =>
        match objEntryF fuel lk lv rest c2 with
        | .error e => .error e
        | .ok (ms, c3) => .ok (cm :: ms, c3)
termination_by structural fuel _ _ _ _ => fuel

/-- The outer generator of `Object._matches`: for each left entry, the
any-reduction over all right entries, collected in order. -/
def objItemsF : Nat → List (Pattern × Pattern) → List (Pattern × Pattern) → Ctx →
    Except String (List Matches × Ctx)
  | 0, _, _, ctx => .ok ([], ctx)
  | _ + 1, [], _, ctx => .ok ([], ctx)
  | fuel + 1, (lk, lv) :: rest, oitems, ctx =>
    match objEntryF fuel lk lv oitems ctx with
    | .error e => .error e
    | .ok (ms, c1) =>
      match objItemsF fuel rest oitems c1 with
      | .error e => .error e
      | .ok (mss, c2) => .ok (matches_any ms :: mss, c2)
termination_by structural fuel _ _ _ => fuel

end

mutual

/-- Structural size of a pattern, used to compute sufficient fuel. -/
def Pattern.psize : Pattern → Nat
  | .atom _ => 1
  | .str _ _ => 1
  | .missing => 1
  | .unknown => 1
  | .alts xs => 1 + Pattern.psizeList xs
  | .array xs _ => 1 + Pattern.psizeList xs
  | .obj xs _ => 1 + Pattern.psizeItems xs
termination_by structural p => p

/-- Summed size of a pattern list. -/
def Pattern.psizeList : List Pattern → Nat
  | [] => 0
  | x :: xs => Pattern.psize x + Pattern.psizeList xs
termination_by structural l => l

/-- Summed size of an item list. -/
def Pattern.psizeItems : List (Pattern × Pattern) → Nat
  | [] => 0
  | (k, v) :: xs => Pattern.psize k + Pattern.psize v + Pattern.psizeItems xs
termination_by structural l => l

end

/-- Fuel exceeding the total number of calls `matches` can make on the given
patterns: the call count is bounded by a small multiple of the number of
subpattern pairs, which the squared summed size dominates. -/
def matchesFuel (l r : Pattern) : Nat :=
  8 * ((l.psize + r.psize) * (l.psize + r.psize)) + 8

/-- `matches(left, right)` with a fresh visited set, keeping the result. -/
def matchesTop (l r : Pattern) : Except String Matches :=
  match matchesF (matchesFuel l r) l r none with
  | .error e => .error e
  | .ok (m, _) => .ok m

/-- The diagnostic text `str(key)` used by the `Object` walk of
`is_ambiguous` (Python renders the key pattern as its JSON dump; the text is
opaque diagnostics and no analyzed behavior depends on its exact form). -/
def patStr : Pattern → String
  | .atom none => "null"
  | .atom (some n) => toString n
  | .str "exact" (some (.strArg s)) => "=" ++ s
  | .str n _ => n
  | .alts _ => "alts"
  | .array _ _ => "array"
  | .obj _ _ => "object"
  | .missing => "<missing>"
  | .unknown => "<unknown>"

/-- The inner loop of the `Alternatives` register of `is_ambiguous`:
`any(matches(early, late) <= threshold for late in alts[i+1:])`, evaluated
left to right with a fresh visited set per comparison. -/
def firstShadow (t : Matches) (early : Pattern) : List Pattern → Except String Bool
  | [] => .ok false
  | late :: rest =>
    match matchesTop early late with
    | .error e => .error e
    | .ok m => if m.val ≤ t.val then .ok true else firstShadow t early rest
termination_by structural l => l

/-- The loop of the `Alternatives` register of `is_ambiguous`:
`for i, early in enumerate(alts[:-1]): for late in alts[i+1:]`, returning
`_path + ("alternative {i}",)` at the first offending pair, else `()`. -/
def ambAltsGo (t : Matches) (path : List String) : Nat → List Pattern →
    Except String (List String)
  | _, [] => .ok []
  | i, early :: rest =>
    if rest.isEmpty then .ok []
    else
      match firstShadow t early rest with
      | .error e => .error e
      | .ok true => .ok (path ++ ["alternative " ++ toString i])
      | .ok false => ambAltsGo t path (i + 1) rest
termination_by structural _ l => l

mutual

/-- `is_ambiguous(pattern, threshold, _path)` from `pattern.py`, dispatching
on the pattern node as the `singledispatch` registrations do.  A nonempty
path tuple is the truthy "ambiguous" result; `()` (here `[]`) is falsy. -/
def isAmb : Pattern → Matches → List String → Except String (List String)
  | .atom _, _, _ => .ok []
  | .str _ _, _, _ => .ok []
  | .missing, t, _ => .ok (if Matches.never.val ≤ t.val then ["<missing>"] else [])
  | .unknown, t, _ => .ok (if Matches.potential.val ≤ t.val then ["<unknown>"] else [])
  | .array elems _, t, path => isAmbAny elems t (path ++ ["[]"])
  | .obj items _, t, path => isAmbItems items t path
  | .alts as, t, path => ambAltsGo t path 0 as

/-- `_any(is_ambiguous(elem, threshold, _path) for elem in elems)`: the first
truthy (nonempty) result wins. -/
def isAmbAny : List Pattern → Matches → List String → Except String (List String)
  | [], _, _ => .ok []
  | e :: rest, t, path =>
    match isAmb e t path with
    | .error er => .error er
    | .ok res => if res.isEmpty then isAmbAny rest t path else .ok res

/-- `_any(is_ambiguous(val, threshold, _path + (str(key),)) for key, val in items)`. -/
def isAmbItems : List (Pattern × Pattern) → Matches → List String → Except String (List String)
  | [], _, _ => .ok []
  | (k, v) :: rest, t, path =>
    match isAmb v t (path ++ [patStr k]) with
    | .error er => .error er
    | .ok res => if res.isEmpty then isAmbItems rest t path else .ok res

end

/-!
The cache (`cache.py`) and the rule-set engine (`ruleset.py`).  Python
objects flowing through `lookup` — type descriptors, plain action functions
and `ForwardAction` cells — are one value universe `Val`; object identity is
a numeric tag.  The mutable `ForwardAction.__call__` slot lives in an
explicit heap of cells inside `CacheState`, and `warnings.warn` is a counter
of emitted `UnhashableType` warnings.
-/

/-- A Python value seen by the engine: a type descriptor (whose `hashable`
flag records whether `hash(typ)` succeeds), a plain callable action on
values, or a `ForwardAction` cell reference. -/
inductive Val where
  | typObj (id : Nat) (hashable : Bool)
  | fn (id : Nat) (f : Int → Int)
  | fwd (cell : Nat)

/-- Python `==`/identity on engine values (by identity tag). -/
def Val.beq : Val → Val → Bool
  | .typObj i _, .typObj j _ => i == j
  | .fn i _, .fn j _ => i == j
  | .fwd i, .fwd j => i == j
  | _, _ => false

/-- Whether `hash(v)` succeeds (only type descriptors may be unhashable). -/
def Val.hashable : Val → Bool
  | .typObj _ h => h
  | _ => true

/-- `isinstance(v, ForwardAction)`. -/
def Val.isFwd : Val → Bool
  | .fwd _ => true
  | _ => false

/-- Display form of a value, standing in for Python `format`/`repr` in error
messages (opaque text naming the object). -/
def Val.show : Val → String
  | .typObj i _ => "<type " ++ toString i ++ ">"
  | .fn i _ => "<function " ++ toString i ++ ">"
  | .fwd c => "<fwd " ++ toString c ++ ">"

/-- Contents of a `ForwardAction` cell: the initial `unfulfilled` poison
closure (which raises naming the verb and type), or the value stored into
`__call__` by fulfillment. -/
inductive CellTarget where
  | poison (verb : String) (typ : Val)
  | ready (a : Val)

/-- A Python exception escaping the modelled code. -/
inductive PyErr where
  | typeError (msg : String)
  | keyError
deriving DecidableEq

/-- The mutable state of a `SimpleCache` together with the heap of
`ForwardAction` cells: `entries` is the backing dict keyed by
`(verb, typ)`, `cells` maps cell identities to their current `__call__`
target, `nextCell` provides fresh identities, and `warnings` counts emitted
`UnhashableType` warnings. -/
structure CacheState where
  entries : List ((String × Val) × Val)
  cells : List (Nat × CellTarget)
  nextCell : Nat
  warnings : Nat

/-- Dict-key equality for `(verb, typ)` pairs. -/
def keyEq (verb : String) (typ : Val) (k : String × Val) : Bool :=
  k.1 == verb && Val.beq k.2 typ

/-- `self.cache.get((verb, typ))` on the backing dict. -/
def entryGet (es : List ((String × Val) × Val)) (verb : String) (typ : Val) : Option Val :=
  match es.find? (fun e => keyEq verb typ e.1) with
  | some e => some e.2
  | none => none

/-- `self.cache[verb, typ] = v` on the backing dict. -/
def entrySet (es : List ((String × Val) × Val)) (verb : String) (typ : Val) (v : Val) :
    List ((String × Val) × Val) :=
  ((verb, typ), v) :: es.filter (fun e => !(keyEq verb typ e.1))

/-- `del self.cache[verb, typ]` on the backing dict (the key's entry is
removed; the caller checks presence). -/
def entryDel (es : List ((String × Val) × Val)) (verb : String) (typ : Val) :
    List ((String × Val) × Val) :=
  es.filter (fun e => !(keyEq verb typ e.1))

/-- Heap read of a cell's current `__call__` target. -/
def cellGet (cs : List (Nat × CellTarget)) (c : Nat) : Option CellTarget :=
  (cs.find? (fun e => e.1 == c)).map (fun e => e.2)

/-- Heap write of a cell's `__call__` target (`present.__call__ = action`). -/
def cellSet (cs : List (Nat × CellTarget)) (c : Nat) (t : CellTarget) :
    List (Nat × CellTarget) :=
  (c, t) :: cs.filter (fun e => !(e.1 == c))

/-- Result of `SimpleCache._lookup`: the cached value, `None`, or the
`NotImplemented` marker returned after warning about an unhashable type. -/
inductive Looked where
  | notImpl
  | absent
  | found (a : Val)

/-- `SimpleCache._lookup(verb, typ)`: reads the dict, degrading a hashing
failure to a warning plus `NotImplemented`. -/
def SimpleCache.lookupRaw (st : CacheState) (verb : String) (typ : Val) :
    Looked × CacheState :=
  if typ.hashable then
    ((match entryGet st.entries verb typ with
      | some a => .found a
      | none => .absent), st)
  else
    (.notImpl, { st with warnings := st.warnings + 1 })

/-- `SimpleCache.get(verb, typ)`: the `_lookup` result with `NotImplemented`
collapsed to `None`. -/
def SimpleCache.get (st : CacheState) (verb : String) (typ : Val) :
    Option Val × CacheState :=
  let (r, st1) := SimpleCache.lookupRaw st verb typ
  ((match r with
    | .found a => some a
    | _ => none), st1)

/-- `SimpleCache.in_flight(verb, typ)`: when `_lookup` yields `None`, create
a fresh `ForwardAction` holding the `unfulfilled` poison closure, store it
in the dict, and return it; otherwise return `None`. -/
def SimpleCache.inFlight (st : CacheState) (verb : String) (typ : Val) :
    Option Nat × CacheState :=
  let (r, st1) := SimpleCache.lookupRaw st verb typ
  match r with
  | .absent =>
    let c := st1.nextCell
    (some c,
      { st1 with
        cells := (c, .poison verb typ) :: st1.cells
        nextCell := c + 1
        entries := entrySet st1.entries verb typ (.fwd c) })
  | _ => (none, st1)

/-- Python `present is forward` in `de_flight`: `None is None`, or identity
between the cached `ForwardAction` and the one returned by `in_flight`. -/
def lookedIs : Looked → Option Nat → Bool
  | .absent, none => true
  | .found (.fwd c), some c2 => c == c2
  | _, _ => false

/-- `SimpleCache.de_flight(verb, typ, forward)`: remove the entry when it is
still the very cell registered by `in_flight`.  The `del` raises `KeyError`
when the key is absent (reachable only by calling `de_flight(…, None)` on an
absent key, which `lookup` never does). -/
def SimpleCache.deFlight (st : CacheState) (verb : String) (typ : Val)
    (forward : Option Nat) : Option PyErr × CacheState :=
  let (r, st1) := SimpleCache.lookupRaw st verb typ
  if lookedIs r forward then
    match r with
    | .found _ => (none, { st1 with entries := entryDel st1.entries verb typ })
    | _ => (some .keyError, st1)
  else (none, st1)

/-- `SimpleCache.complete(verb, typ, action)`: do nothing for an unhashable
type; store the action when absent; when a `ForwardAction` is present,
fulfill it in place (`present.__call__ = action`) and replace the dict entry
with the action itself; leave any other present entry untouched. -/
def SimpleCache.complete (st : CacheState) (verb : String) (typ : Val) (action : Val) :
    CacheState :=
  let (r, st1) := SimpleCache.lookupRaw st verb typ
  match r with
  | .notImpl => st1
  | .absent => { st1 with entries := entrySet st1.entries verb typ action }
  | .found a =>
    match a with
    | .fwd c =>
      { st1 with
        cells := cellSet st1.cells c (.ready action)
        entries := entrySet st1.entries verb typ action }
    | _ => st1

/-- Calling an action value on an argument: a plain function applies; a
`ForwardAction` forwards through its cell, raising the distinct
"Forward reference was never fulfilled to verb for typ" `TypeError` while
the cell still holds the poison closure.  Fuel bounds forwarding chains
(exhaustion models Python's recursion limit on a self-referential cell). -/
def invokeAction (st : CacheState) : Nat → Val → Int → Except PyErr Int
  | _, .fn _ f, v => .ok (f v)
  | _, .typObj _ _, _ => .error (.typeError "type object is not callable")
  | 0, .fwd _, _ => .error (.typeError "maximum recursion depth exceeded")
  | fuel + 1, .fwd c, v =>
    match cellGet st.cells c with
    | none => .error (.typeError "dangling cell")
    | some (.poison verb typ) =>
      .error (.typeError
        ("Forward reference was never fulfilled to " ++ verb ++ " for " ++ typ.show))
    | some (.ready a) => invokeAction st fuel a v

/-- A rule: `rule(verb=verb, typ=typ, ctx=self)` returns an action or
`None`; receiving the engine (`ctx`) lets it reenter `lookup`, so its
observable effect is a transformation of the shared cache state. -/
def Rule := String → Val → CacheState → Option Val × CacheState

/-- A rule that does not touch the engine state. -/
def Rule.pureR (f : String → Val → Option Val) : Rule :=
  fun verb typ st => (f verb typ, st)

/-- A `SimpleRuleSet`: the ordered rule tuple and the `fallback` hook
(`SimpleRuleSet.fallback` returns `None`; subclasses may override). -/
structure Engine where
  rules : List Rule
  fallback : String → Option Val → Option Val

/-- One observable evaluation step of `lookup`: a rule called with the cache
state it received, or the fallback called on rule exhaustion. -/
inductive Event where
  | ruleCall (idx : Nat) (st : CacheState)
  | fallbackCall (st : CacheState)

/-- Index of a rule-call event. -/
def Event.idx : Event → Option Nat
  | .ruleCall i _ => some i
  | .fallbackCall _ => none

/-- The `for rule in self.rules` loop of `lookup`: evaluate rules in
registration order, stopping at the first non-`None` action, recording each
call with the state it was given. -/
def runRulesGo (verb : String) (typ : Val) : List Rule → Nat → CacheState →
    Option Val × CacheState × List Event
  | [], _, st => (none, st, [])
  | r :: rest, i, st =>
    let res := r verb typ st
    match res.1 with
    | some a => (some a, res.2, [.ruleCall i st])
    | none =>
      let next := runRulesGo verb typ rest (i + 1) res.2
      (next.1, next.2.1, .ruleCall i st :: next.2.2)

/-- Modelled from the spec: `SimpleCache.access` is invoked by
`SimpleRuleSet.lookup` (`with self.cache.access() as cache:`) but its
definition is not among the provided source files (only this caller is).
Per the spec, the cache contract is the four methods get/in-flight/
complete/release (§4.2) and the model is single-threaded with no suspension
(§5), so `access` checks out the cache itself for the duration of the
block; it is modelled as the identity on the cache state. -/
def SimpleCache.access (st : CacheState) : CacheState := st

/-- The `"Failed: lookup({!s}, {!r})"` message. -/
def failedMsg (verb : String) (typ : Val) : String :=
  "Failed: lookup(" ++ verb ++ ", " ++ typ.show ++ ")"

/-- The `"Attempted to find {} for 'None'"` message. -/
def missingMsg (verb : String) : String :=
  "Attempted to find " ++ verb ++ " for " ++ "'None'"

/-- The `try … finally` section of `lookup` once an in-flight placeholder
has been handled: scan the rules in order, fall back on exhaustion,
complete the cache on success, always release the in-flight entry
(`de_flight` in the `finally`), and finally raise the
`"Failed: lookup(…)"` error when no action was found and `accept_missing`
is false (returning `None` silently when it is true). -/
def lookupCont (eng : Engine) (verb : String) (typ : Val) (acceptMissing : Bool)
    (forward : Option Nat) (st : CacheState) :
    Except PyErr (Option Val) × CacheState × List Event :=
  let ran := runRulesGo verb typ eng.rules 0 st
  let acted : Option Val × CacheState × List Event :=
    match ran.1 with
    | some a => (some a, SimpleCache.complete ran.2.1 verb typ a, ran.2.2)
    | none =>
      match eng.fallback verb (some typ) with
      | some a =>
        (some a, SimpleCache.complete ran.2.1 verb typ a,
          ran.2.2 ++ [.fallbackCall ran.2.1])
      | none => (none, ran.2.1, ran.2.2 ++ [.fallbackCall ran.2.1])
  let de := SimpleCache.deFlight acted.2.1 verb typ forward
  match de.1 with
  | some e => (.error e, de.2, acted.2.2)
  | none =>
    match acted.1 with
    | some a => (.ok (some a), de.2, acted.2.2)
    | none =>
      if acceptMissing then (.ok none, de.2, acted.2.2)
      else (.error (.typeError (failedMsg verb typ)), de.2, acted.2.2)

/-- The body of `SimpleRuleSet.lookup` after the missing-type handling: the
`with self.cache.access()` block (cache fast path, in-flight registration,
then the rule scan of `lookupCont`).  Returns the outcome, the final state,
and the trace of rule/fallback evaluations. -/
def SimpleRuleSet.lookupBody (eng : Engine) (verb : String) (typ : Val)
    (acceptMissing : Bool) (st0 : CacheState) :
    Except PyErr (Option Val) × CacheState × List Event :=
  let cache := SimpleCache.access st0
  let got := SimpleCache.get cache verb typ
  match got.1 with
  | some a => (.ok (some a), got.2, [])
  | none =>
    let flight := SimpleCache.inFlight got.2 verb typ
    lookupCont eng verb typ acceptMissing flight.1 flight.2

/-- `SimpleRuleSet.lookup(verb, typ, accept_missing)`: when `typ` is `None`,
either fail with the missing-type `TypeError` (`accept_missing` false) or
ask the fallback hook for a type, failing the same way when it yields
`None`; otherwise run the cache-and-rules body. -/
def SimpleRuleSet.lookup (eng : Engine) (verb : String) (typ : Option Val)
    (acceptMissing : Bool) (st : CacheState) :
    Except PyErr (Option Val) × CacheState × List Event :=
  match typ with
  | some t => SimpleRuleSet.lookupBody eng verb t acceptMissing st
  | none =>
    if acceptMissing then
      match eng.fallback verb none with
      | some t => SimpleRuleSet.lookupBody eng verb t acceptMissing st
      | none => (.error (.typeError (missingMsg verb)), st, [])
    else (.error (.typeError (missingMsg verb)), st, [])

/-!
Auxiliary predicates used only to state the claims.
-/

/-- Whether a pattern is an `Alternatives` node. -/
def Pattern.isAlts : Pattern → Bool
  | .alts _ => true
  | _ => false

/-- Whether a pattern is one of the `_Unknown` sentinels. -/
def Pattern.isSentinel : Pattern → Bool
  | .missing => true
  | .unknown => true
  | _ => false

/-- The node kind (Python class) of a pattern. -/
def Pattern.kind : Pattern → Nat
  | .atom _ => 0
  | .str _ _ => 1
  | .alts _ => 2
  | .array _ _ => 3
  | .obj _ _ => 4
  | .missing => 5
  | .unknown => 6

/-- Whether `matches(e, l)` succeeds with a strength at or above threshold
`t` (at most `t` numerically); a Python exception counts as no shadow. -/
def shadowB (t : Matches) (e l : Pattern) : Bool :=
  match matchesTop e l with
  | .ok m => decide (m.val ≤ t.val)
  | .error _ => false

/-- Whether branch `i` of the branch list shadows branch `j` at or above
threshold `t` (out-of-range indices read as `Missing`). -/
def shadowPair (t : Matches) (bs : List Pattern) (i j : Nat) : Bool :=
  shadowB t (bs.getD i .missing) (bs.getD j .missing)

/-- Modelled from the spec: the per-entry combination of `Object` matching,
"the combined result requiring both the key-pattern match and the
value-pattern match of that entry pair to hold" — the all-reduction of the
two sub-results (the source instead combines them with Python `and`). -/
def specCombineEntry (km vm : Matches) : Matches :=
  matches_all [km, vm]

/-- A rule whose state transformation never disturbs an in-flight
`ForwardAction` entry for `(verb, typ)` — true of any rule that interacts
with the cache only by reentering `lookup` (a reentrant `lookup` of this key
returns the cell from the fast path, and `lookup` of any other key touches
only that key's entry). -/
def RulePreserves (r : Rule) (verb : String) (typ : Val) : Prop :=
  ∀ st c, entryGet st.entries verb typ = some (.fwd c) →
    entryGet (r verb typ st).2.entries verb typ = some (.fwd c)

/-- A rule that produces real actions for `(verb, typ)`, never a bare
`ForwardAction` cell. -/
def RuleReal (r : Rule) (verb : String) (typ : Val) : Prop :=
  ∀ st a, (r verb typ st).1 = some a → a.isFwd = false

/-- The fallback hook produces real actions for `typ`, never a bare
`ForwardAction` cell. -/
def FallbackReal (eng : Engine) (verb : String) (typ : Val) : Prop :=
  ∀ a, eng.fallback verb (some typ) = some a → a.isFwd = false

/-!
General lemmas about the pattern algebra.
-/

theorem matches_any_single (m : Matches) : matches_any [m] = m := by
  cases m <;> rfl

theorem Pattern.psize_pos (p : Pattern) : 1 ≤ p.psize := by
  cases p <;> simp [Pattern.psize]

theorem Pattern.unpack_nonalts (p : Pattern) (h : p.isAlts = false) :
    p.unpack = [p] := by
  cases p <;> simp_all [Pattern.isAlts, Pattern.unpack]

theorem matchesTop_nonalts (l r : Pattern) (hl : l.isAlts = false)
    (hr : r.isAlts = false) :
    matchesTop l r =
      match pmatchesF (matchesFuel l r - 3 + 1) l r [(l, r)] with
      | .error e => .error e
      | .ok (m, _) => .ok m := by
  have h8 : 8 ≤ matchesFuel l r := by
    unfold matchesFuel
    omega
  obtain ⟨n, hn⟩ : ∃ n, matchesFuel l r = n + 1 + 1 + 1 := ⟨matchesFuel l r - 3, by omega⟩
  rw [show matchesFuel l r - 3 = n from by omega]
  unfold matchesTop
  rw [hn]
  simp only [matchesF, pairsOf, Pattern.unpack_nonalts l hl, Pattern.unpack_nonalts r hr,
    List.map_cons, List.map_nil, List.flatten, matchesProd]
  cases hpm : pmatchesF (n + 1) l r [(l, r)] with
  | error e => simp [hpm]
  | ok mc =>
    obtain ⟨m, c1⟩ := mc
    simp [hpm, matchesProd, matches_any_single]

/-- C5: the claim says `matches` on two `Object` patterns combines each
key-pattern match and value-pattern match by requiring both to hold.  The
code instead combines them with Python `and`; since `Matches.always == 0`
is falsy, an Always key match short-circuits to Always and the value match
is ignored.  At the failing input — single-entry exact objects with the
same exact key `"a"` but atom values `0` versus `1` — the key match is
Always and the value match is Never, yet the code yields Always, where the
claimed combination (`specCombineEntry`, the all-reduction of the two)
yields Never. -/
theorem C5_object_and_bug_eval :
    matchesTop (strExact "a") (strExact "a") = .ok .always ∧
    matchesTop (.atom (some 0)) (.atom (some 1)) = .ok .never ∧
    matchesTop (.obj [(strExact "a", .atom (some 0))] false)
      (.obj [(strExact "a", .atom (some 1))] false) = .ok .always ∧
    specCombineEntry .always .never = .never :=
  ⟨rfl, rfl, rfl, rfl⟩

/-- C6 counterexample: the claim asserts `matches(X, Unknown)` is Potential
for every pattern `X`, but `matches` dispatches on the left operand only:
`Atom._matches` returns Never for any non-`Atom` right side, so
`matches(Atom(0), Unknown)` is Never, not Potential. -/
theorem C6_counterexample :
    matchesTop (.atom (some 0)) .unknown = .ok .never ∧
    ¬ matchesTop (.atom (some 0)) .unknown = .ok .potential := by
  constructor
  · rfl
  · intro h
    rw [show matchesTop (.atom (some 0)) .unknown = .ok .never from rfl] at h
    simp at h

/-- C6 (amended): for non-`Alternatives` patterns the sentinel exception
applies to the left side only.  If the left side is not a sentinel and the
node kinds differ, `matches` returns Never (including when the right side
is `Unknown` or `Missing`); `matches(Unknown, X)` is Potential and
`matches(Missing, X)` is Never for every non-`Alternatives` `X`. -/
theorem C6_left_dispatch_amended (l r : Pattern)
    (hl : l.isAlts = false) (hr : r.isAlts = false) :
    (l.isSentinel = false → Pattern.kind l ≠ Pattern.kind r →
      matchesTop l r = .ok .never) ∧
    (l = .unknown → matchesTop l r = .ok .potential) ∧
    (l = .missing → matchesTop l r = .ok .never) := by
  refine ⟨?_, ?_, ?_⟩
  · intro hs hk
    rw [matchesTop_nonalts l r hl hr]
    cases l <;> cases r <;>
      simp_all [Pattern.kind, Pattern.isAlts, Pattern.isSentinel, pmatchesF]
  · intro h
    subst h
    rw [matchesTop_nonalts Pattern.unknown r rfl hr]
    simp [pmatchesF]
  · intro h
    subst h
    rw [matchesTop_nonalts Pattern.missing r rfl hr]
    simp [pmatchesF]

/-- Witness for C6 (amended) at concrete inputs: an atom against an array
(kind mismatch, Never), `Unknown` against an object (Potential), `Missing`
against an atom (Never). -/
theorem C6_witness :
    matchesTop (.atom (some 0)) (.array [] false) = .ok .never ∧
    matchesTop .unknown (.obj [] false) = .ok .potential ∧
    matchesTop .missing (.atom none) = .ok .never :=
  ⟨(C6_left_dispatch_amended (.atom (some 0)) (.array [] false) rfl rfl).1 rfl (by decide),
   (C6_left_dispatch_amended .unknown (.obj [] false) rfl rfl).2.1 rfl,
   (C6_left_dispatch_amended .missing (.atom none) rfl rfl).2.2 rfl⟩

theorem firstShadow_eq_any (t : Matches) (early : Pattern) (rest : List Pattern)
    (h : ∀ l ∈ rest, ∃ m, matchesTop early l = .ok m) :
    firstShadow t early rest = .ok (rest.any (shadowB t early)) := by
  induction rest with
  | nil => rfl
  | cons x xs ih =>
    obtain ⟨m, hm⟩ := h x (List.mem_cons_self x xs)
    simp only [firstShadow, hm, List.any_cons]
    by_cases hv : m.val ≤ t.val
    · simp [hv, shadowB, hm]
    · rw [if_neg hv, ih (fun l hl => h l (List.mem_cons_of_mem _ hl))]
      simp [shadowB, hm, hv]

theorem ambAltsGo_spec (t : Matches) (path : List String) :
    ∀ (bs : List Pattern) (i : Nat),
      (∀ e ∈ bs, ∀ l ∈ bs, ∃ m, matchesTop e l = .ok m) →
      (ambAltsGo t path i bs = .ok [] ∧
        ∀ a b, a < b → b < bs.length → shadowPair t bs a b = false) ∨
      (∃ a, (∃ b, a < b ∧ b < bs.length ∧ shadowPair t bs a b = true) ∧
        (∀ a2, a2 < a → ∀ b, a2 < b → b < bs.length → shadowPair t bs a2 b = false) ∧
        ambAltsGo t path i bs = .ok (path ++ ["alternative " ++ toString (i + a)])) := by
  intro bs
  induction bs with
  | nil =>
    intro i _
    left
    refine ⟨rfl, ?_⟩
    intro a b _ hb
    simp at hb
  | cons early rest ih =>
    intro i h
    cases rest with
    | nil =>
      left
      refine ⟨rfl, ?_⟩
      intro a b hab hb
      simp at hb
      omega
    | cons y ys =>
      have hfs := firstShadow_eq_any t early (y :: ys)
        (fun l hl => h early (List.mem_cons_self _ _) l (List.mem_cons_of_mem _ hl))
      cases hany : (y :: ys).any (shadowB t early) with
      | true =>
        right
        refine ⟨0, ?_, ?_, ?_⟩
        · obtain ⟨x, hx, hsx⟩ := List.any_eq_true.mp hany
          obtain ⟨k, hk, hget⟩ := List.mem_iff_getElem.mp hx
          have hk2 : k < ys.length + 1 := by simpa using hk
          refine ⟨k + 1, by omega, by simp only [List.length_cons]; omega, ?_⟩
          have hgd : (early :: y :: ys).getD (k + 1) Pattern.missing = x := by
            rw [List.getD_cons_succ, List.getD_eq_getElem _ _ hk, hget]
          unfold shadowPair
          rw [List.getD_cons_zero, hgd]
          exact hsx
        · intro a2 ha2
          omega
        · rw [show ambAltsGo t path i (early :: y :: ys)
              = (match firstShadow t early (y :: ys) with
                 | .error e => .error e
                 | .ok true => .ok (path ++ ["alternative " ++ toString i])
                 | .ok false => ambAltsGo t path (i + 1) (y :: ys)) from rfl]
          rw [hfs, hany]
          simp
      | false =>
        have hall : ∀ x ∈ y :: ys, shadowB t early x = false := by
          intro x hx
          by_contra hcon
          have hcon2 : (y :: ys).any (shadowB t early) = true :=
            List.any_eq_true.mpr ⟨x, hx, by simpa using hcon⟩
          rw [hany] at hcon2
          cases hcon2
        have hsub : ∀ e ∈ y :: ys, ∀ l ∈ y :: ys, ∃ m, matchesTop e l = .ok m :=
          fun e he l hl =>
            h e (List.mem_cons_of_mem _ he) l (List.mem_cons_of_mem _ hl)
        have hshift : ∀ a2 b2, b2 < ys.length + 1 →
            shadowPair t (early :: y :: ys) (a2 + 1) (b2 + 1) =
              shadowPair t (y :: ys) a2 b2 := by
          intro a2 b2 _
          unfold shadowPair
          rw [List.getD_cons_succ, List.getD_cons_succ]
        have hzero : ∀ b2, b2 < ys.length + 1 →
            shadowPair t (early :: y :: ys) 0 (b2 + 1) = false := by
          intro b2 hb2
          unfold shadowPair
          rw [List.getD_cons_zero, List.getD_cons_succ]
          exact hall _ (by
            rw [List.getD_eq_getElem _ _ (by simpa using hb2)]
            exact List.getElem_mem _)
        rcases ih (i + 1) hsub with ⟨hres, hnone⟩ | ⟨a, ⟨b, hab, hblen, hsp⟩, hmin, hres⟩
        · left
          constructor
          · rw [show ambAltsGo t path i (early :: y :: ys)
                = (match firstShadow t early (y :: ys) with
                   | .error e => .error e
                   | .ok true => .ok (path ++ ["alternative " ++ toString i])
                   | .ok false => ambAltsGo t path (i + 1) (y :: ys)) from rfl]
            rw [hfs, hany]
            exact hres
          · intro a b hab hb
            have hb2 : b < ys.length + 2 := by simpa using hb
            match a, b with
            | 0, b + 1 => exact hzero b (by omega)
            | a + 1, b + 1 =>
              rw [hshift a b (by omega)]
              exact hnone a b (by omega) (by simp only [List.length_cons]; omega)
        · right
          refine ⟨a + 1, ⟨b + 1, by omega, ?_, ?_⟩, ?_, ?_⟩
          · have : b < ys.length + 1 := by simpa using hblen
            simp only [List.length_cons]
            omega
          · rw [hshift a b (by simpa using hblen)]
            exact hsp
          · intro a2 ha2 b2 hb2 hb2len
            have hb3 : b2 < ys.length + 2 := by simpa using hb2len
            match a2, b2 with
            | 0, b2 + 1 => exact hzero b2 (by omega)
            | a2 + 1, b2 + 1 =>
              rw [hshift a2 b2 (by omega)]
              exact hmin a2 (by omega) b2 (by omega) (by simp only [List.length_cons]; omega)
          · rw [show ambAltsGo t path i (early :: y :: ys)
                = (match firstShadow t early (y :: ys) with
                   | .error e => .error e
                   | .ok true => .ok (path ++ ["alternative " ++ toString i])
                   | .ok false => ambAltsGo t path (i + 1) (y :: ys)) from rfl]
            rw [hfs, hany, hres]
            have harith : i + 1 + a = i + (a + 1) := by omega
            rw [harith]

/-- C4 counterexample: take A = B = `String.any`.  Then `matches(A, B)` is
Always, yet `is_ambiguous([B, A], Always)` returns the truthy path
`("alternative 0",)`, refuting the claim that it is falsy whenever
`matches(A, B)` is Always. -/
theorem C4_counterexample :
    matchesTop strAny strAny = .ok .always ∧
    isAmb (.alts [strAny, strAny]) .always [] = .ok ["alternative 0"] := by
  constructor
  · rfl
  · simp only [isAmb]
    rfl

theorem ambAltsGo_pair (t : Matches) (path : List String) (i : Nat)
    (A B : Pattern) (m : Matches) (h : matchesTop A B = .ok m) :
    ambAltsGo t path i [A, B] =
      if m.val ≤ t.val then .ok (path ++ ["alternative " ++ toString i])
      else .ok [] := by
  rw [show ambAltsGo t path i [A, B]
      = (match firstShadow t A [B] with
         | .error e => .error e
         | .ok true => .ok (path ++ ["alternative " ++ toString i])
         | .ok false => ambAltsGo t path (i + 1) [B]) from rfl]
  rw [show firstShadow t A [B]
      = (match matchesTop A B with
         | .error e => .error e
         | .ok m2 => if m2.val ≤ t.val then .ok true else firstShadow t A []) from rfl]
  rw [h]
  show (match (if m.val ≤ t.val then (Except.ok true : Except String Bool)
              else firstShadow t A []) with
        | Except.error e => (Except.error e : Except String (List String))
        | Except.ok true => Except.ok (path ++ ["alternative " ++ toString i])
        | Except.ok false => ambAltsGo t path (i + 1) [B]) = _
  by_cases hv : m.val ≤ t.val
  · simp only [if_pos hv]
  · simp only [if_neg hv]
    rfl

/-- C4 (amended): for an `Alternatives` pattern whose pairwise branch
comparisons raise no exception, `is_ambiguous` with threshold `t` reports
ambiguity exactly when some earlier branch `i` shadows some later branch
`j > i` at or above the threshold, and then returns the path naming the
least such offending earlier branch.  In particular, when `matches(A, B)`
is Always, `is_ambiguous([A, B], Always)` is the truthy
`("alternative 0",)`; `is_ambiguous([B, A], Always)` is falsy provided
`matches(B, A)` is itself not Always (without that proviso the claim fails;
see the counterexample with A = B). -/
theorem C4_ambiguity_ordering_amended (t : Matches) (bs : List Pattern)
    (path : List String)
    (hok : ∀ e ∈ bs, ∀ l ∈ bs, ∃ m, matchesTop e l = .ok m) :
    (∃ res, isAmb (.alts bs) t path = .ok res ∧
      (res ≠ [] ↔ ∃ i j, i < j ∧ j < bs.length ∧ shadowPair t bs i j = true) ∧
      (res ≠ [] → ∃ i0,
        (∃ j, i0 < j ∧ j < bs.length ∧ shadowPair t bs i0 j = true) ∧
        (∀ i2, i2 < i0 → ∀ j, i2 < j → j < bs.length →
          shadowPair t bs i2 j = false) ∧
        res = path ++ ["alternative " ++ toString i0])) ∧
    (∀ A B, matchesTop A B = .ok .always →
      isAmb (.alts [A, B]) .always [] = .ok ["alternative 0"]) ∧
    (∀ A B m, matchesTop A B = .ok .always → matchesTop B A = .ok m →
      m ≠ .always → isAmb (.alts [B, A]) .always [] = .ok []) := by
  have hiso : ∀ (cs : List Pattern) (t2 : Matches) (p2 : List String),
      isAmb (.alts cs) t2 p2 = ambAltsGo t2 p2 0 cs := by
    intro cs t2 p2
    simp only [isAmb]
  refine ⟨?_, ?_, ?_⟩
  · rcases ambAltsGo_spec t path bs 0 hok with
      ⟨hres, hnone⟩ | ⟨a, ⟨b, hab, hblen, hsp⟩, hmin, hres⟩
    · refine ⟨[], by rw [hiso]; exact hres, ?_, ?_⟩
      · constructor
        · intro hne
          exact absurd rfl hne
        · rintro ⟨i, j, hij, hj, hspij⟩
          rw [hnone i j hij hj] at hspij
          cases hspij
      · intro hne
        exact absurd rfl hne
    · rw [Nat.zero_add] at hres
      refine ⟨path ++ ["alternative " ++ toString a], by rw [hiso]; exact hres, ?_, ?_⟩
      · constructor
        · intro _
          exact ⟨a, b, hab, hblen, hsp⟩
        · intro _
          simp
      · intro _
        exact ⟨a, ⟨b, hab, hblen, hsp⟩, hmin, rfl⟩
  · intro A B hA
    rw [hiso, ambAltsGo_pair Matches.always [] 0 A B Matches.always hA]
    rw [if_pos (by decide)]
    rfl
  · intro A B m hA hBA hm
    rw [hiso, ambAltsGo_pair Matches.always [] 0 B A m hBA]
    rw [if_neg (by cases m <;> simp_all [Matches.val])]

/-- Witness for C4 (amended) at the spec's own example: a generic-string
branch A and a date-string branch B; `is_ambiguous([A, B], Always)` flags
alternative 0 while `is_ambiguous([B, A], Always)` is falsy. -/
theorem C4_witness :
    isAmb (.alts [strAny, .str "date" none]) .always [] = .ok ["alternative 0"] ∧
    isAmb (.alts [.str "date" none, strAny]) .always [] = .ok [] := by
  obtain ⟨-, hAB, hBA⟩ := C4_ambiguity_ordering_amended .always
    [strAny, .str "date" none] []
    (by intro e he l hl; fin_cases he <;> fin_cases hl <;> exact ⟨_, rfl⟩)
  exact ⟨hAB strAny (.str "date" none) rfl,
    hBA strAny (.str "date" none) .sometimes rfl rfl (by decide)⟩

/-!
General lemmas about the cache and the engine.
-/

theorem Val.beq_refl (v : Val) : Val.beq v v = true := by
  cases v <;> simp [Val.beq]

theorem keyEq_self (verb : String) (typ : Val) : keyEq verb typ (verb, typ) = true := by
  simp [keyEq, Val.beq_refl]

theorem entryGet_set (es : List ((String × Val) × Val)) (verb : String) (typ v : Val) :
    entryGet (entrySet es verb typ v) verb typ = some v := by
  simp [entryGet, entrySet, List.find?_cons_of_pos, keyEq_self]

theorem entryGet_del (es : List ((String × Val) × Val)) (verb : String) (typ : Val) :
    entryGet (entryDel es verb typ) verb typ = none := by
  unfold entryGet entryDel
  rw [List.find?_eq_none.mpr]
  · intro x hx
    have hmem := (List.mem_filter.mp hx).2
    simp only [Bool.not_eq_true'] at hmem
    simp [hmem]

theorem cellGet_set (cs : List (Nat × CellTarget)) (c : Nat) (tgt : CellTarget) :
    cellGet (cellSet cs c tgt) c = some tgt := by
  simp [cellGet, cellSet, List.find?_cons_of_pos]

theorem get_eq_hashable (st : CacheState) (verb : String) (typ : Val)
    (hh : typ.hashable = true) :
    SimpleCache.get st verb typ = (entryGet st.entries verb typ, st) := by
  simp only [SimpleCache.get, SimpleCache.lookupRaw, hh, if_pos]
  cases entryGet st.entries verb typ <;> simp

theorem inFlight_absent (st : CacheState) (verb : String) (typ : Val)
    (hh : typ.hashable = true) (habs : entryGet st.entries verb typ = none) :
    SimpleCache.inFlight st verb typ =
      (some st.nextCell,
        { st with
          cells := (st.nextCell, .poison verb typ) :: st.cells
          nextCell := st.nextCell + 1
          entries := entrySet st.entries verb typ (.fwd st.nextCell) }) := by
  simp [SimpleCache.inFlight, SimpleCache.lookupRaw, hh, habs]

/-- C8: invoking an unfulfilled `ForwardAction` cell raises the distinct
"Forward reference was never fulfilled to verb for typ" `TypeError` naming
the verb and the type; after `complete(verb, typ, action)` fulfills it, the
very same cell transparently forwards to the real action and returns its
result. -/
theorem C8_forward_reference (st : CacheState) (c : Nat) (verb : String)
    (typ : Val) (v : Int) (fuel : Nat)
    (hc : cellGet st.cells c = some (.poison verb typ)) :
    invokeAction st (fuel + 1) (.fwd c) v =
      .error (.typeError
        ("Forward reference was never fulfilled to " ++ verb ++ " for " ++ typ.show)) ∧
    (∀ (idf : Nat) (f : Int → Int), typ.hashable = true →
      entryGet st.entries verb typ = some (.fwd c) →
      invokeAction (SimpleCache.complete st verb typ (.fn idf f))
        (fuel + 1 + 1) (.fwd c) v = .ok (f v)) := by
  constructor
  · simp [invokeAction, hc]
  · intro idf f hh hent
    have hcomp : SimpleCache.complete st verb typ (.fn idf f) =
        { st with
          cells := cellSet st.cells c (.ready (.fn idf f))
          entries := entrySet st.entries verb typ (.fn idf f) } := by
      simp [SimpleCache.complete, SimpleCache.lookupRaw, hh, hent]
    rw [hcomp]
    simp [invokeAction, cellGet_set]

/-- Witness for C8 at a concrete state holding one in-flight cell. -/
theorem C8_witness :
    invokeAction ⟨[(("v", .typObj 3 true), .fwd 0)], [(0, .poison "v" (.typObj 3 true))], 1, 0⟩
      1 (.fwd 0) 4 =
      .error (.typeError
        ("Forward reference was never fulfilled to " ++ "v" ++ " for " ++ (Val.typObj 3 true).show)) ∧
    invokeAction
      (SimpleCache.complete
        ⟨[(("v", .typObj 3 true), .fwd 0)], [(0, .poison "v" (.typObj 3 true))], 1, 0⟩
        "v" (.typObj 3 true) (.fn 7 (fun x => x + 1)))
      2 (.fwd 0) 4 = .ok 5 := by
  have h := C8_forward_reference
    ⟨[(("v", .typObj 3 true), .fwd 0)], [(0, .poison "v" (.typObj 3 true))], 1, 0⟩
    0 "v" (.typObj 3 true) 4 0 rfl
  exact ⟨h.1, by simpa using h.2 7 (fun x => x + 1) rfl rfl⟩

/-- C9: for an unhashable type descriptor every cache operation degrades to
treating the entry as absent — `get` returns `None`, `in_flight` creates no
entry and returns `None`, `complete` stores nothing, `de_flight` deletes
nothing and raises nothing — each emitting an `UnhashableType` warning
rather than an exception, and `lookup` still runs the rules and returns the
rule's action while caching nothing (only the warning counter changes). -/
theorem C9_unhashable_degrades (st : CacheState) (verb : String) (typ : Val)
    (a : Val) (fwd : Option Nat) (f : String → Val → Option Val)
    (fb : String → Option Val → Option Val) (am : Bool)
    (hh : typ.hashable = false) (hf : f verb typ = some a) :
    SimpleCache.get st verb typ = (none, { st with warnings := st.warnings + 1 }) ∧
    SimpleCache.inFlight st verb typ = (none, { st with warnings := st.warnings + 1 }) ∧
    SimpleCache.complete st verb typ a = { st with warnings := st.warnings + 1 } ∧
    SimpleCache.deFlight st verb typ fwd = (none, { st with warnings := st.warnings + 1 }) ∧
    SimpleRuleSet.lookup ⟨[Rule.pureR f], fb⟩ verb (some typ) am st =
      (.ok (some a), { st with warnings := st.warnings + 1 + 1 + 1 + 1 },
        [.ruleCall 0 { st with warnings := st.warnings + 1 + 1 }]) := by
  refine ⟨?_, ?_, ?_, ?_, ?_⟩
  · simp [SimpleCache.get, SimpleCache.lookupRaw, hh]
  · simp [SimpleCache.inFlight, SimpleCache.lookupRaw, hh]
  · simp [SimpleCache.complete, SimpleCache.lookupRaw, hh]
  · simp [SimpleCache.deFlight, SimpleCache.lookupRaw, lookedIs, hh]
  · simp [SimpleRuleSet.lookup, SimpleRuleSet.lookupBody, lookupCont,
      SimpleCache.access, SimpleCache.get, SimpleCache.inFlight,
      SimpleCache.complete, SimpleCache.deFlight, SimpleCache.lookupRaw,
      lookedIs, hh, runRulesGo, Rule.pureR, hf]

/-- Witness for C9 at a concrete unhashable type descriptor. -/
theorem C9_witness :
    SimpleCache.get ⟨[], [], 0, 0⟩ "v" (.typObj 9 false) =
      (none, ⟨[], [], 0, 1⟩) ∧
    SimpleRuleSet.lookup
      ⟨[Rule.pureR (fun _ _ => some (.fn 5 (fun x => x)))], fun _ _ => none⟩
      "v" (some (.typObj 9 false)) false ⟨[], [], 0, 0⟩ =
      (.ok (some (.fn 5 (fun x => x))), ⟨[], [], 0, 4⟩,
        [.ruleCall 0 ⟨[], [], 0, 2⟩]) := by
  have h := C9_unhashable_degrades ⟨[], [], 0, 0⟩ "v" (.typObj 9 false)
    (.fn 5 (fun x => x)) none (fun _ _ => some (.fn 5 (fun x => x)))
    (fun _ _ => none) false rfl rfl
  exact ⟨h.1, h.2.2.2.2⟩

/-- C10: looking up an absent (`None`) type with `accept_missing` false
raises the missing-type `TypeError` naming the verb, touching neither the
cache state nor any rule (the trace is empty and the state is returned
unchanged, whatever it was); with `accept_missing` true the call delegates
to the engine's fallback hook — if the hook yields nothing the same
missing-type error is raised, and if it yields a type the lookup proceeds
on that type. -/
theorem C10_missing_type (eng : Engine) (verb : String) (st : CacheState) :
    SimpleRuleSet.lookup eng verb none false st =
      (.error (.typeError (missingMsg verb)), st, []) ∧
    (eng.fallback verb none = none →
      SimpleRuleSet.lookup eng verb none true st =
        (.error (.typeError (missingMsg verb)), st, [])) ∧
    (∀ t, eng.fallback verb none = some t →
      SimpleRuleSet.lookup eng verb none true st =
        SimpleRuleSet.lookupBody eng verb t true st) := by
  refine ⟨?_, ?_, ?_⟩
  · simp [SimpleRuleSet.lookup]
  · intro h
    simp [SimpleRuleSet.lookup, h]
  · intro t h
    simp [SimpleRuleSet.lookup, h]

theorem lookup_eq_body (eng : Engine) (verb : String) (typ : Val) (am : Bool)
    (st : CacheState) :
    SimpleRuleSet.lookup eng verb (some typ) am st =
      SimpleRuleSet.lookupBody eng verb typ am st := rfl

theorem lookupBody_cached (eng : Engine) (verb : String) (typ : Val) (am : Bool)
    (st : CacheState) (a : Val) (hh : typ.hashable = true)
    (h : entryGet st.entries verb typ = some a) :
    SimpleRuleSet.lookupBody eng verb typ am st = (.ok (some a), st, []) := by
  simp only [SimpleRuleSet.lookupBody, SimpleCache.access,
    get_eq_hashable st verb typ hh, h]

theorem lookupBody_absent (eng : Engine) (verb : String) (typ : Val) (am : Bool)
    (st : CacheState) (hh : typ.hashable = true)
    (habs : entryGet st.entries verb typ = none) :
    SimpleRuleSet.lookupBody eng verb typ am st =
      lookupCont eng verb typ am (some st.nextCell)
        { st with
          cells := (st.nextCell, .poison verb typ) :: st.cells
          nextCell := st.nextCell + 1
          entries := entrySet st.entries verb typ (.fwd st.nextCell) } := by
  simp only [SimpleRuleSet.lookupBody, SimpleCache.access,
    get_eq_hashable st verb typ hh, habs, inFlight_absent st verb typ hh habs]

theorem runRulesGo_head (verb : String) (typ : Val) (r : Rule) (rs : List Rule)
    (i : Nat) (st : CacheState) :
    (runRulesGo verb typ (r :: rs) i st).2.2.head? = some (.ruleCall i st) := by
  simp only [runRulesGo]
  cases (r verb typ st).1 <;> simp

theorem runRulesGo_preserve (verb : String) (typ : Val) (rules : List Rule)
    (hpres : ∀ r ∈ rules, RulePreserves r verb typ) :
    ∀ (i : Nat) (st : CacheState) (c : Nat),
      entryGet st.entries verb typ = some (.fwd c) →
      entryGet (runRulesGo verb typ rules i st).2.1.entries verb typ = some (.fwd c) := by
  induction rules with
  | nil =>
    intro i st c h
    simpa [runRulesGo] using h
  | cons r rest ih =>
    intro i st c h
    have hr := hpres r (List.mem_cons_self _ _) st c h
    simp only [runRulesGo]
    cases hres : (r verb typ st).1 with
    | some a => simpa using hr
    | none =>
      simp only []
      exact ih (fun r2 h2 => hpres r2 (List.mem_cons_of_mem _ h2)) (i + 1)
        (r verb typ st).2 c hr

theorem runRulesGo_none (verb : String) (typ : Val) (rules : List Rule)
    (hdecl : ∀ r ∈ rules, ∀ st2, (r verb typ st2).1 = none) :
    ∀ (i : Nat) (st : CacheState), (runRulesGo verb typ rules i st).1 = none := by
  induction rules with
  | nil =>
    intro i st
    simp [runRulesGo]
  | cons r rest ih =>
    intro i st
    have h0 := hdecl r (List.mem_cons_self _ _) st
    simp only [runRulesGo, h0]
    exact ih (fun r2 h2 => hdecl r2 (List.mem_cons_of_mem _ h2)) (i + 1) (r verb typ st).2

theorem runRulesGo_real (verb : String) (typ : Val) (rules : List Rule)
    (hreal : ∀ r ∈ rules, RuleReal r verb typ) :
    ∀ (i : Nat) (st : CacheState) (a : Val),
      (runRulesGo verb typ rules i st).1 = some a → a.isFwd = false := by
  induction rules with
  | nil =>
    intro i st a h
    simp [runRulesGo] at h
  | cons r rest ih =>
    intro i st a h
    simp only [runRulesGo] at h
    cases hres : (r verb typ st).1 with
    | some b =>
      rw [hres] at h
      simp at h
      exact h ▸ hreal r (List.mem_cons_self _ _) st b hres
    | none =>
      rw [hres] at h
      simp at h
      exact ih (fun r2 h2 => hreal r2 (List.mem_cons_of_mem _ h2)) (i + 1)
        (r verb typ st).2 a h

theorem deFlight_err_none (st : CacheState) (verb : String) (typ : Val)
    (c : Nat) (a : Val) (hh : typ.hashable = true)
    (hent : entryGet st.entries verb typ = some a) :
    (SimpleCache.deFlight st verb typ (some c)).1 = none := by
  simp only [SimpleCache.deFlight, SimpleCache.lookupRaw, hh, if_true, hent]
  split <;> simp

theorem runRulesGo_cons_trace (verb : String) (typ : Val) (r : Rule)
    (rs : List Rule) (i : Nat) (st : CacheState) :
    ∃ tl, (runRulesGo verb typ (r :: rs) i st).2.2 = .ruleCall i st :: tl := by
  simp only [runRulesGo]
  cases (r verb typ st).1 <;> simp

theorem lookupCont_trace (eng : Engine) (verb : String) (typ : Val) (am : Bool)
    (fwd : Option Nat) (st : CacheState) :
    (lookupCont eng verb typ am fwd st).2.2 =
      match (runRulesGo verb typ eng.rules 0 st).1 with
      | some _ => (runRulesGo verb typ eng.rules 0 st).2.2
      | none => (runRulesGo verb typ eng.rules 0 st).2.2 ++
          [.fallbackCall (runRulesGo verb typ eng.rules 0 st).2.1] := by
  simp only [lookupCont]
  cases hran : (runRulesGo verb typ eng.rules 0 st).1 with
  | some a =>
    cases hde : (SimpleCache.deFlight
        (SimpleCache.complete (runRulesGo verb typ eng.rules 0 st).2.1 verb typ a)
        verb typ fwd).1 <;> simp
  | none =>
    cases hfb : eng.fallback verb (some typ) with
    | some a =>
      cases hde : (SimpleCache.deFlight
          (SimpleCache.complete (runRulesGo verb typ eng.rules 0 st).2.1 verb typ a)
          verb typ fwd).1 <;> simp
    | none =>
      cases hde : (SimpleCache.deFlight (runRulesGo verb typ eng.rules 0 st).2.1
          verb typ fwd).1 <;>
        cases am <;> simp

/-- C1: for a verb and a hashable type descriptor with no cached entry,
`lookup` registers the in-flight placeholder — a fresh `ForwardAction` cell
holding the poison closure, stored in the cache at `(verb, typ)` — before
evaluating any rule: the first rule evaluation (when a rule exists) already
sees the registered cell.  And a reentrant `lookup(verb, typ)` performed in
any state still holding that cell returns the very same cell from the
cache fast path, evaluating no rule and leaving the state unchanged. -/
theorem C1_inflight_registration (eng : Engine) (verb : String) (typ : Val)
    (st : CacheState) (am : Bool)
    (hh : typ.hashable = true)
    (habs : entryGet st.entries verb typ = none) :
    ∃ c,
      (∀ r rs, eng.rules = r :: rs →
        ∃ st2, (SimpleRuleSet.lookup eng verb (some typ) am st).2.2.head? =
            some (.ruleCall 0 st2) ∧
          entryGet st2.entries verb typ = some (.fwd c) ∧
          cellGet st2.cells c = some (.poison verb typ)) ∧
      (∀ (st3 : CacheState) (am2 : Bool),
        entryGet st3.entries verb typ = some (.fwd c) →
        SimpleRuleSet.lookup eng verb (some typ) am2 st3 =
          (.ok (some (.fwd c)), st3, [])) := by
  refine ⟨st.nextCell, ?_, ?_⟩
  · intro r rs hrl
    refine ⟨{ st with
        cells := (st.nextCell, .poison verb typ) :: st.cells
        nextCell := st.nextCell + 1
        entries := entrySet st.entries verb typ (.fwd st.nextCell) }, ?_, ?_, ?_⟩
    · rw [lookup_eq_body, lookupBody_absent eng verb typ am st hh habs,
        lookupCont_trace]
      rw [hrl]
      obtain ⟨tl, htl⟩ := runRulesGo_cons_trace verb typ r rs 0
        { st with
          cells := (st.nextCell, .poison verb typ) :: st.cells
          nextCell := st.nextCell + 1
          entries := entrySet st.entries verb typ (.fwd st.nextCell) }
      rw [htl]
      cases (runRulesGo verb typ (r :: rs) 0
        { st with
          cells := (st.nextCell, .poison verb typ) :: st.cells
          nextCell := st.nextCell + 1
          entries := entrySet st.entries verb typ (.fwd st.nextCell) }).1 <;>
        simp
    · exact entryGet_set st.entries verb typ (.fwd st.nextCell)
    · simp [cellGet, List.find?_cons_of_pos]
  · intro st3 am2 h3
    rw [lookup_eq_body, lookupBody_cached eng verb typ am2 st3 _ hh h3]

/-- Witness for C1 with a concrete one-rule engine, an empty cache, and a
reentrant call on a state holding the registered cell. -/
theorem C1_witness :
    ∃ c,
      (∃ st2,
        (SimpleRuleSet.lookup ⟨[Rule.pureR (fun _ _ => none)], fun _ _ => none⟩
            "v" (some (.typObj 1 true)) false ⟨[], [], 0, 0⟩).2.2.head? =
          some (.ruleCall 0 st2) ∧
        entryGet st2.entries "v" (.typObj 1 true) = some (.fwd c) ∧
        cellGet st2.cells c = some (.poison "v" (.typObj 1 true))) ∧
      SimpleRuleSet.lookup ⟨[Rule.pureR (fun _ _ => none)], fun _ _ => none⟩ "v"
          (some (.typObj 1 true)) false
          ⟨[(("v", .typObj 1 true), .fwd c)], [], 0, 0⟩ =
        (.ok (some (.fwd c)), ⟨[(("v", .typObj 1 true), .fwd c)], [], 0, 0⟩, []) := by
  obtain ⟨c, ha, hb⟩ := C1_inflight_registration
    ⟨[Rule.pureR (fun _ _ => none)], fun _ _ => none⟩ "v" (.typObj 1 true)
    ⟨[], [], 0, 0⟩ false rfl rfl
  obtain ⟨st2, hhead, hent, hcell⟩ := ha _ _ rfl
  refine ⟨c, ⟨st2, hhead, hent, hcell⟩, ?_⟩
  exact hb ⟨[(("v", .typObj 1 true), .fwd c)], [], 0, 0⟩ false
    (by simp [entryGet, List.find?_cons_of_pos, keyEq_self])

theorem map_ruleCall_shift (st : CacheState) (i k : Nat) :
    List.map (fun j => Event.ruleCall (i + j) st) (List.range (k + 1)) =
      Event.ruleCall i st ::
        List.map (fun j => Event.ruleCall (i + 1 + j) st) (List.range k) := by
  rw [List.range_succ_eq_map, List.map_cons, List.map_map]
  congr 1
  simp [Function.comp]
  intro a _
  omega

theorem runRulesGo_pure_first (verb : String) (typ : Val) :
    ∀ (fs : List (String → Val → Option Val)) (k : Nat)
      (fk : String → Val → Option Val) (a : Val) (i : Nat) (st : CacheState),
      (∀ j, j < k → ∀ fj, fs.get? j = some fj → fj verb typ = none) →
      fs.get? k = some fk → fk verb typ = some a →
      runRulesGo verb typ (fs.map Rule.pureR) i st =
        (some a, st, (List.range (k + 1)).map (fun j => .ruleCall (i + j) st)) := by
  intro fs
  induction fs with
  | nil =>
    intro k fk a i st _ hk _
    simp at hk
  | cons f rest ih =>
    intro k fk a i st hlt hk ha
    cases k with
    | zero =>
      simp only [List.get?_cons_zero, Option.some.injEq] at hk
      subst hk
      rw [show List.range 1 = [0] from rfl]
      simp [runRulesGo, Rule.pureR, ha]
    | succ k2 =>
      have h0 : f verb typ = none := hlt 0 (by omega) f rfl
      have hrec := ih k2 fk a (i + 1) st
        (fun j hj fj hfj => hlt (j + 1) (by omega) fj hfj) hk ha
      simp only [List.map_cons, runRulesGo, Rule.pureR, h0]
      rw [hrec]
      simp only [Prod.mk.injEq, true_and]
      conv_rhs => rw [map_ruleCall_shift]

/-- C3: `lookup` evaluates the rules in registration order, passing each the
verb, the type, and the engine context; the first rule returning a
non-absent action wins, rules after it are never evaluated (the trace holds
exactly rule calls 0..k, in order, and no fallback call), and with two
rules that both accept, `[f, g]` yields `f`'s action while `[g, f]` yields
`g`'s, so reordering changes the result whenever the two actions differ. -/
theorem C3_rule_order (verb : String) (typ : Val) (st : CacheState) (am : Bool)
    (fs : List (String → Val → Option Val))
    (fb : String → Option Val → Option Val) (k : Nat)
    (fk : String → Val → Option Val) (a : Val)
    (hh : typ.hashable = true) (habs : entryGet st.entries verb typ = none)
    (hlt : ∀ j, j < k → ∀ fj, fs.get? j = some fj → fj verb typ = none)
    (hk : fs.get? k = some fk) (ha : fk verb typ = some a) :
    ((SimpleRuleSet.lookup ⟨fs.map Rule.pureR, fb⟩ verb (some typ) am st).1 =
        .ok (some a) ∧
      (SimpleRuleSet.lookup ⟨fs.map Rule.pureR, fb⟩ verb (some typ) am st).2.2.map
          Event.idx =
        (List.range (k + 1)).map some) ∧
    (∀ (f g : String → Val → Option Val) (b b2 : Val),
      f verb typ = some b → g verb typ = some b2 →
      (SimpleRuleSet.lookup ⟨[f, g].map Rule.pureR, fb⟩ verb (some typ) am st).1 =
        .ok (some b) ∧
      (SimpleRuleSet.lookup ⟨[g, f].map Rule.pureR, fb⟩ verb (some typ) am st).1 =
        .ok (some b2) ∧
      (b ≠ b2 →
        (SimpleRuleSet.lookup ⟨[f, g].map Rule.pureR, fb⟩ verb (some typ) am st).1 ≠
        (SimpleRuleSet.lookup ⟨[g, f].map Rule.pureR, fb⟩ verb (some typ) am st).1)) := by
  have main : ∀ (fs2 : List (String → Val → Option Val)) (k2 : Nat)
      (fk2 : String → Val → Option Val) (a2 : Val),
      (∀ j, j < k2 → ∀ fj, fs2.get? j = some fj → fj verb typ = none) →
      fs2.get? k2 = some fk2 → fk2 verb typ = some a2 →
      (SimpleRuleSet.lookup ⟨fs2.map Rule.pureR, fb⟩ verb (some typ) am st).1 =
          .ok (some a2) ∧
        (SimpleRuleSet.lookup ⟨fs2.map Rule.pureR, fb⟩ verb (some typ) am
            st).2.2.map Event.idx =
          (List.range (k2 + 1)).map some := by
    intro fs2 k2 fk2 a2 hlt2 hk2 ha2
    rw [lookup_eq_body,
      lookupBody_absent ⟨fs2.map Rule.pureR, fb⟩ verb typ am st hh habs]
    set st2 : CacheState :=
      { st with
        cells := (st.nextCell, .poison verb typ) :: st.cells
        nextCell := st.nextCell + 1
        entries := entrySet st.entries verb typ (.fwd st.nextCell) } with hst2
    have hrun := runRulesGo_pure_first verb typ fs2 k2 fk2 a2 0 st2 hlt2 hk2 ha2
    have hent2 : entryGet st2.entries verb typ = some (.fwd st.nextCell) :=
      entryGet_set st.entries verb typ (.fwd st.nextCell)
    have hcomp : SimpleCache.complete st2 verb typ a2 =
        { st2 with
          cells := cellSet st2.cells st.nextCell (.ready a2)
          entries := entrySet st2.entries verb typ a2 } := by
      simp [SimpleCache.complete, SimpleCache.lookupRaw, hh, hent2]
    have hdnone : (SimpleCache.deFlight (SimpleCache.complete st2 verb typ a2)
        verb typ (some st.nextCell)).1 = none := by
      rw [hcomp]
      exact deFlight_err_none _ verb typ st.nextCell a2 hh
        (entryGet_set st2.entries verb typ a2)
    simp only [lookupCont, hrun, hdnone]
    constructor
    · simp
    · simp [List.map_map]
      intro j hj
      simp [Event.idx]
  refine ⟨main fs k fk a hlt hk ha, ?_⟩
  intro f g b b2 hf hg
  have h1 := (main [f, g] 0 f b (by intro j hj fj hfj; omega) rfl hf).1
  have h2 := (main [g, f] 0 g b2 (by intro j hj fj hfj; omega) rfl hg).1
  refine ⟨h1, h2, ?_⟩
  intro hne
  rw [h1, h2]
  intro heq
  exact hne (by injection heq with h3; injection h3)

/-- Witness for C3: a declining rule followed by an accepting one (the trace
shows rules 0 and 1 and no fallback), and two accepting rules in both
orders, returning different actions. -/
theorem C3_witness :
    (SimpleRuleSet.lookup
        ⟨[Rule.pureR (fun _ _ => none),
          Rule.pureR (fun _ _ => some (.fn 1 (fun x => x)))], fun _ _ => none⟩
        "v" (some (.typObj 2 true)) false ⟨[], [], 0, 0⟩).1 =
      .ok (some (.fn 1 (fun x => x))) ∧
    (SimpleRuleSet.lookup
        ⟨[Rule.pureR (fun _ _ => none),
          Rule.pureR (fun _ _ => some (.fn 1 (fun x => x)))], fun _ _ => none⟩
        "v" (some (.typObj 2 true)) false ⟨[], [], 0, 0⟩).2.2.map Event.idx =
      [some 0, some 1] ∧
    (SimpleRuleSet.lookup
        ⟨[Rule.pureR (fun _ _ => some (.fn 1 (fun x => x))),
          Rule.pureR (fun _ _ => some (.fn 2 (fun x => x)))], fun _ _ => none⟩
        "v" (some (.typObj 2 true)) false ⟨[], [], 0, 0⟩).1 =
      .ok (some (.fn 1 (fun x => x))) ∧
    (SimpleRuleSet.lookup
        ⟨[Rule.pureR (fun _ _ => some (.fn 2 (fun x => x))),
          Rule.pureR (fun _ _ => some (.fn 1 (fun x => x)))], fun _ _ => none⟩
        "v" (some (.typObj 2 true)) false ⟨[], [], 0, 0⟩).1 =
      .ok (some (.fn 2 (fun x => x))) := by
  have h := C3_rule_order "v" (.typObj 2 true) ⟨[], [], 0, 0⟩ false
    [fun _ _ => none, fun _ _ => some (.fn 1 (fun x => x))] (fun _ _ => none)
    1 (fun _ _ => some (.fn 1 (fun x => x))) (.fn 1 (fun x => x))
    rfl rfl
    (by
      intro j hj fj hfj
      have hj0 : j = 0 := by omega
      subst hj0
      simp only [List.get?_cons_zero, Option.some.injEq] at hfj
      subst hfj
      rfl)
    rfl rfl
  have h2 := h.2 (fun _ _ => some (.fn 1 (fun x => x)))
    (fun _ _ => some (.fn 2 (fun x => x))) (.fn 1 (fun x => x))
    (.fn 2 (fun x => x)) rfl rfl
  exact ⟨h.1.1, h.1.2, h2.1, h2.2.1⟩

/-- C7: when every rule declines (while preserving the in-flight entry, as
rules that interact with the cache only through reentrant `lookup` do) and
the fallback yields nothing, `lookup` with `accept_missing` false removes
the in-flight placeholder — the final cache maps `(verb, typ)` to nothing,
so a later attempt can retry — and raises the `TypeError` whose message
names the verb and the type.  Moreover `de_flight` removes an entry only
when it is the very cell that was registered: an entry completed to any
other value by a recursive path is left untouched. -/
theorem C7_unresolved_failure (eng : Engine) (verb : String) (typ : Val)
    (st : CacheState)
    (hh : typ.hashable = true) (habs : entryGet st.entries verb typ = none)
    (hdecl : ∀ r ∈ eng.rules, ∀ st2, (r verb typ st2).1 = none)
    (hpres : ∀ r ∈ eng.rules, RulePreserves r verb typ)
    (hfb : eng.fallback verb (some typ) = none) :
    (∃ st3 tr,
      SimpleRuleSet.lookup eng verb (some typ) false st =
        (.error (.typeError (failedMsg verb typ)), st3, tr) ∧
      entryGet st3.entries verb typ = none) ∧
    (∀ (st2 : CacheState) (c : Nat) (b : Val),
      entryGet st2.entries verb typ = some b → b ≠ .fwd c →
      SimpleCache.deFlight st2 verb typ (some c) = (none, st2)) := by
  constructor
  · rw [lookup_eq_body, lookupBody_absent eng verb typ false st hh habs]
    set stf : CacheState :=
      { st with
        cells := (st.nextCell, .poison verb typ) :: st.cells
        nextCell := st.nextCell + 1
        entries := entrySet st.entries verb typ (.fwd st.nextCell) } with hstf
    have hrn := runRulesGo_none verb typ eng.rules hdecl 0 stf
    have hpf : entryGet (runRulesGo verb typ eng.rules 0 stf).2.1.entries verb typ =
        some (.fwd st.nextCell) :=
      runRulesGo_preserve verb typ eng.rules hpres 0 stf st.nextCell
        (entryGet_set st.entries verb typ (.fwd st.nextCell))
    have hdf : SimpleCache.deFlight (runRulesGo verb typ eng.rules 0 stf).2.1
        verb typ (some st.nextCell) =
        (none,
          { (runRulesGo verb typ eng.rules 0 stf).2.1 with
            entries := entryDel (runRulesGo verb typ eng.rules 0 stf).2.1.entries
              verb typ }) := by
      simp [SimpleCache.deFlight, SimpleCache.lookupRaw, hh, hpf, lookedIs]
    simp only [lookupCont, hrn, hfb, hdf]
    refine ⟨_, _, rfl, ?_⟩
    exact entryGet_del _ verb typ
  · intro st2 c b hent hne
    have hli : lookedIs (.found b) (some c) = false := by
      cases b <;> simp_all [lookedIs]
    simp [SimpleCache.deFlight, SimpleCache.lookupRaw, hh, hent, hli]

/-- Witness for C7: an engine whose single rule declines and whose fallback
yields nothing, on an empty cache, plus a `de_flight` call against a state
holding a completed plain action. -/
theorem C7_witness :
    (∃ st3 tr,
      SimpleRuleSet.lookup ⟨[Rule.pureR (fun _ _ => none)], fun _ _ => none⟩
          "v" (some (.typObj 4 true)) false ⟨[], [], 0, 0⟩ =
        (.error (.typeError (failedMsg "v" (.typObj 4 true))), st3, tr) ∧
      entryGet st3.entries "v" (.typObj 4 true) = none) ∧
    SimpleCache.deFlight
        ⟨[(("v", .typObj 4 true), .fn 9 (fun x => x))], [], 3, 0⟩
        "v" (.typObj 4 true) (some 2) =
      (none, ⟨[(("v", .typObj 4 true), .fn 9 (fun x => x))], [], 3, 0⟩) := by
  have h := C7_unresolved_failure
    ⟨[Rule.pureR (fun _ _ => none)], fun _ _ => none⟩ "v" (.typObj 4 true)
    ⟨[], [], 0, 0⟩ rfl rfl
    (by
      intro r hr st2
      rcases List.mem_singleton.mp hr with rfl
      rfl)
    (by
      intro r hr st2 c hc
      rcases List.mem_singleton.mp hr with rfl
      exact hc)
    rfl
  refine ⟨h.1, ?_⟩
  exact h.2 ⟨[(("v", .typObj 4 true), .fn 9 (fun x => x))], [], 3, 0⟩ 2
    (.fn 9 (fun x => x))
    (by simp [entryGet, List.find?_cons_of_pos, keyEq_self])
    (by simp)

/-- C2: for a fixed rule list and a hashable type descriptor, if a call to
`lookup` returns an action, a second call on the resulting state returns
the very same action through the cache fast path: it evaluates no rule,
calls no fallback (empty trace), and leaves the state untouched.  The rules
are assumed to preserve the in-flight entry (true of rules interacting with
the cache only via reentrant `lookup`) and to produce real actions rather
than bare forward cells, as is the fallback. -/
theorem C2_lookup_deterministic (eng : Engine) (verb : String) (typ : Val)
    (st st2 : CacheState) (am am2 : Bool) (a : Val) (tr : List Event)
    (hh : typ.hashable = true)
    (hpres : ∀ r ∈ eng.rules, RulePreserves r verb typ)
    (hreal : ∀ r ∈ eng.rules, RuleReal r verb typ)
    (hfbreal : FallbackReal eng verb typ)
    (h1 : SimpleRuleSet.lookup eng verb (some typ) am st = (.ok (some a), st2, tr)) :
    SimpleRuleSet.lookup eng verb (some typ) am2 st2 = (.ok (some a), st2, []) := by
  have hcached : entryGet st2.entries verb typ = some a := by
    cases hent : entryGet st.entries verb typ with
    | some b =>
      rw [lookup_eq_body, lookupBody_cached eng verb typ am st b hh hent] at h1
      have hval : b = a := by
        have hfst := congrArg Prod.fst h1
        simpa using hfst
      have hst : st = st2 := by
        have hsnd := congrArg (fun p => p.2.1) h1
        simpa using hsnd
      rw [← hst, hent, hval]
    | none =>
      rw [lookup_eq_body, lookupBody_absent eng verb typ am st hh hent] at h1
      set stf : CacheState :=
        { st with
          cells := (st.nextCell, .poison verb typ) :: st.cells
          nextCell := st.nextCell + 1
          entries := entrySet st.entries verb typ (.fwd st.nextCell) } with hstf
      have hentf : entryGet stf.entries verb typ = some (.fwd st.nextCell) :=
        entryGet_set st.entries verb typ (.fwd st.nextCell)
      have hpf := runRulesGo_preserve verb typ eng.rules hpres 0 stf st.nextCell hentf
      cases hran : (runRulesGo verb typ eng.rules 0 stf).1 with
      | some a0 =>
        have hnf : a0.isFwd = false :=
          runRulesGo_real verb typ eng.rules hreal 0 stf a0 hran
        have hcomp : SimpleCache.complete (runRulesGo verb typ eng.rules 0 stf).2.1
            verb typ a0 =
            { (runRulesGo verb typ eng.rules 0 stf).2.1 with
              cells := cellSet (runRulesGo verb typ eng.rules 0 stf).2.1.cells
                st.nextCell (.ready a0)
              entries := entrySet (runRulesGo verb typ eng.rules 0 stf).2.1.entries
                verb typ a0 } := by
          simp [SimpleCache.complete, SimpleCache.lookupRaw, hh, hpf]
        have hentc : entryGet (SimpleCache.complete
            (runRulesGo verb typ eng.rules 0 stf).2.1 verb typ a0).entries verb typ =
            some a0 := by
          rw [hcomp]
          exact entryGet_set _ verb typ a0
        have hli : lookedIs (.found a0) (some st.nextCell) = false := by
          cases a0 <;> simp_all [lookedIs, Val.isFwd]
        have hde : SimpleCache.deFlight (SimpleCache.complete
            (runRulesGo verb typ eng.rules 0 stf).2.1 verb typ a0) verb typ
            (some st.nextCell) =
            (none, SimpleCache.complete (runRulesGo verb typ eng.rules 0 stf).2.1
              verb typ a0) := by
          simp [SimpleCache.deFlight, SimpleCache.lookupRaw, hh, hentc, hli]
        simp only [lookupCont, hran, hde] at h1
        have hval : a0 = a := by
          have hfst := congrArg Prod.fst h1
          simpa using hfst
        have hst2 : SimpleCache.complete (runRulesGo verb typ eng.rules 0 stf).2.1
            verb typ a0 = st2 := by
          have hsnd := congrArg (fun p => p.2.1) h1
          simpa using hsnd
        rw [← hst2, hentc, hval]
      | none =>
        cases hfb : eng.fallback verb (some typ) with
        | some b =>
          have hnf : b.isFwd = false := hfbreal b hfb
          have hcomp : SimpleCache.complete (runRulesGo verb typ eng.rules 0 stf).2.1
              verb typ b =
              { (runRulesGo verb typ eng.rules 0 stf).2.1 with
                cells := cellSet (runRulesGo verb typ eng.rules 0 stf).2.1.cells
                  st.nextCell (.ready b)
                entries := entrySet (runRulesGo verb typ eng.rules 0 stf).2.1.entries
                  verb typ b } := by
            simp [SimpleCache.complete, SimpleCache.lookupRaw, hh, hpf]
          have hentc : entryGet (SimpleCache.complete
              (runRulesGo verb typ eng.rules 0 stf).2.1 verb typ b).entries verb typ =
              some b := by
            rw [hcomp]
            exact entryGet_set _ verb typ b
          have hli : lookedIs (.found b) (some st.nextCell) = false := by
            cases b <;> simp_all [lookedIs, Val.isFwd]
          have hde : SimpleCache.deFlight (SimpleCache.complete
              (runRulesGo verb typ eng.rules 0 stf).2.1 verb typ b) verb typ
              (some st.nextCell) =
              (none, SimpleCache.complete (runRulesGo verb typ eng.rules 0 stf).2.1
                verb typ b) := by
            simp [SimpleCache.deFlight, SimpleCache.lookupRaw, hh, hentc, hli]
          simp only [lookupCont, hran, hfb, hde] at h1
          have hval : b = a := by
            have hfst := congrArg Prod.fst h1
            simpa using hfst
          have hst2 : SimpleCache.complete (runRulesGo verb typ eng.rules 0 stf).2.1
              verb typ b = st2 := by
            have hsnd := congrArg (fun p => p.2.1) h1
            simpa using hsnd
          rw [← hst2, hentc, hval]
        | none =>
          exfalso
          cases hde2 : (SimpleCache.deFlight (runRulesGo verb typ eng.rules 0 stf).2.1
              verb typ (some st.nextCell)).1 with
          | some e =>
            simp only [lookupCont, hran, hfb, hde2] at h1
            have hfst := congrArg Prod.fst h1
            simp at hfst
          | none =>
            simp only [lookupCont, hran, hfb, hde2] at h1
            cases am with
            | true =>
              have hfst := congrArg Prod.fst h1
              simp at hfst
            | false =>
              have hfst := congrArg Prod.fst h1
              simp at hfst
  rw [lookup_eq_body, lookupBody_cached eng verb typ am2 st2 a hh hcached]

/-- Witness for C2: a one-rule engine on an empty cache; the second call on
the state produced by the first returns the cached action with no rule
evaluations. -/
theorem C2_witness :
    SimpleRuleSet.lookup
        ⟨[Rule.pureR (fun _ _ => some (.fn 7 (fun x => x + 1)))], fun _ _ => none⟩
        "J2P" (some (.typObj 10 true)) false
        ⟨[(("J2P", .typObj 10 true), .fn 7 (fun x => x + 1))],
          [(0, .ready (.fn 7 (fun x => x + 1)))], 1, 0⟩ =
      (.ok (some (.fn 7 (fun x => x + 1))),
        ⟨[(("J2P", .typObj 10 true), .fn 7 (fun x => x + 1))],
          [(0, .ready (.fn 7 (fun x => x + 1)))], 1, 0⟩, []) := by
  apply C2_lookup_deterministic
    ⟨[Rule.pureR (fun _ _ => some (.fn 7 (fun x => x + 1)))], fun _ _ => none⟩
    "J2P" (.typObj 10 true) ⟨[], [], 0, 0⟩ _ false false _
    [.ruleCall 0 ⟨[(("J2P", .typObj 10 true), .fwd 0)],
      [(0, .poison "J2P" (.typObj 10 true))], 1, 0⟩]
    rfl
  · intro r hr
    rcases List.mem_singleton.mp hr with rfl
    intro st c h
    exact h
  · intro r hr
    rcases List.mem_singleton.mp hr with rfl
    intro st a h
    simp only [Rule.pureR, Option.some.injEq] at h
    rw [← h]
    rfl
  · intro a h
    simp at h
  · rfl

/-- Witness for C10 with a concrete engine whose fallback yields nothing. -/
theorem C10_witness :
    SimpleRuleSet.lookup ⟨[], fun _ _ => none⟩ "J2P" none false ⟨[], [], 0, 0⟩ =
      (.error (.typeError (missingMsg "J2P")), ⟨[], [], 0, 0⟩, []) ∧
    SimpleRuleSet.lookup ⟨[], fun _ _ => none⟩ "J2P" none true ⟨[], [], 0, 0⟩ =
      (.error (.typeError (missingMsg "J2P")), ⟨[], [], 0, 0⟩, []) := by
  have h := C10_missing_type ⟨[], fun _ _ => none⟩ "J2P" ⟨[], [], 0, 0⟩
  exact ⟨h.1, h.2.1 rfl⟩

end JsonSyntax
